import Mathlib

/-!
Verification of the Organization Index and Reconciliation Engine of
SillyTavern-ChatPlus (src/index.js), via a shallow embedding in Lean.

JavaScript plain objects used as string-keyed dictionaries are embedded as
association lists in insertion order (`JsMap`): property update on an
existing key keeps its position, a new key is appended at the end, and
property deletion removes the pair.  JavaScript arrays become Lean lists,
falsy-string checks become comparisons with the empty string, and the
tolerant external timestamp parser is a parameter `String → Option Int`
(returning the normalized timestamp, or none when the parse is invalid).
-/

namespace ChatPlus

/-- A JavaScript object used as a dictionary: association list in insertion
order with unique keys maintained by the operations below. -/
abbrev JsMap (α : Type) := List (String × α)

/-- Property read: the first (and in a well-formed map, only) binding. -/
def jsGet {α : Type} (m : JsMap α) (k : String) : Option α :=
  (m.find? (fun p => p.1 = k)).map (fun p => p.2)

/-- Property write: replace in place when the key exists, append otherwise. -/
def jsSet {α : Type} (m : JsMap α) (k : String) (v : α) : JsMap α :=
  if (jsGet m k).isSome then
    m.map (fun p => if p.1 = k then (k, v) else p)
  else
    m ++ [(k, v)]

/-- Property deletion. -/
def jsDelete {α : Type} (m : JsMap α) (k : String) : JsMap α :=
  m.filter (fun p => p.1 ≠ k)

theorem jsGet_nil {α : Type} (k : String) : jsGet ([] : JsMap α) k = none := rfl

theorem jsGet_cons {α : Type} (a : String) (b : α) (t : JsMap α) (k : String) :
    jsGet ((a, b) :: t) k = if a = k then some b else jsGet t k := by
  by_cases h : a = k <;> simp [jsGet, List.find?_cons, h]

theorem jsGet_mapReplace_ne {α : Type} (m : JsMap α) (k k' : String) (v : α)
    (h : k ≠ k') :
    jsGet (m.map (fun p => if p.1 = k then (k, v) else p)) k' = jsGet m k' := by
  induction m with
  | nil => rfl
  | cons p t ih =>
      rcases p with ⟨a, b⟩
      by_cases ha : a = k
      · simp [List.map_cons, ha, jsGet_cons, h, ih]
      · by_cases h2 : a = k' <;>
          simp [List.map_cons, ha, jsGet_cons, h2, ih, Ne.symm h]

theorem jsGet_mapReplace_self {α : Type} (m : JsMap α) (k : String) (v : α)
    (h : (jsGet m k).isSome) :
    jsGet (m.map (fun p => if p.1 = k then (k, v) else p)) k = some v := by
  induction m with
  | nil => simp [jsGet] at h
  | cons p t ih =>
      rcases p with ⟨a, b⟩
      by_cases ha : a = k
      · simp [List.map_cons, ha, jsGet_cons]
      · rw [jsGet_cons] at h
        simp only [ha, if_neg, not_false_iff] at h
        simp [List.map_cons, ha, jsGet_cons, ih h]

theorem jsGet_append_single {α : Type} (m : JsMap α) (k k' : String) (v : α) :
    jsGet (m ++ [(k, v)]) k' = if (jsGet m k').isSome then jsGet m k'
      else if k = k' then some v else none := by
  induction m with
  | nil => simp [jsGet_nil, jsGet_cons]
  | cons p t ih =>
      rcases p with ⟨a, b⟩
      by_cases h : a = k' <;> simp [jsGet_cons, h, ih]

theorem jsGet_jsSet_self {α : Type} (m : JsMap α) (k : String) (v : α) :
    jsGet (jsSet m k v) k = some v := by
  unfold jsSet
  by_cases h : (jsGet m k).isSome
  · simpa [h] using jsGet_mapReplace_self m k v h
  · simp only [h, if_neg, Bool.false_eq_true, not_false_iff]
    rw [jsGet_append_single]
    simp [h]

theorem jsGet_jsSet_ne {α : Type} (m : JsMap α) (k k' : String) (v : α)
    (h : k ≠ k') : jsGet (jsSet m k v) k' = jsGet m k' := by
  unfold jsSet
  by_cases hs : (jsGet m k).isSome
  · simpa [hs] using jsGet_mapReplace_ne m k k' v h
  · simp only [hs, if_neg, Bool.false_eq_true, not_false_iff]
    rw [jsGet_append_single]
    by_cases h' : (jsGet m k').isSome
    · simp [h']
    · simp only [h', if_neg, Bool.false_eq_true, not_false_iff, h]
      exact (Option.not_isSome_iff_eq_none.mp h').symm

theorem mem_jsSet {α : Type} (m : JsMap α) (k : String) (v : α)
    (p : String × α) (hp : p ∈ jsSet m k v) : p = (k, v) ∨ p ∈ m := by
  unfold jsSet at hp
  by_cases hs : (jsGet m k).isSome
  · simp only [hs, if_pos] at hp
    rcases List.mem_map.mp hp with ⟨q, hq, he⟩
    by_cases hqk : q.1 = k
    · left
      simpa [hqk] using he.symm
    · right
      simp only [beq_iff_eq, hqk, if_neg, not_false_iff] at he
      exact he ▸ hq
  · simp only [hs, if_neg, Bool.false_eq_true, not_false_iff,
      List.mem_append, List.mem_singleton] at hp
    rcases hp with hp | hp
    · exact Or.inr hp
    · exact Or.inl hp

theorem mem_jsDelete {α : Type} (m : JsMap α) (k : String)
    (p : String × α) (hp : p ∈ jsDelete m k) : p ∈ m :=
  List.mem_of_mem_filter hp

theorem jsGet_jsDelete_self {α : Type} (m : JsMap α) (k : String) :
    jsGet (jsDelete m k) k = none := by
  induction m with
  | nil => rfl
  | cons p t ih =>
      rcases p with ⟨a, b⟩
      by_cases h : a = k <;> simp [jsDelete, List.filter_cons, h, jsGet_cons] <;>
        simpa [jsDelete] using ih

theorem jsGet_mem {α : Type} (m : JsMap α) (k : String) (v : α)
    (h : jsGet m k = some v) : (k, v) ∈ m := by
  unfold jsGet at h
  rcases hf : m.find? (fun p => p.1 = k) with _ | q
  · simp [hf] at h
  · rcases q with ⟨a, b⟩
    have hm := List.mem_of_find?_eq_some hf
    have hak : a = k := by simpa using List.find?_some hf
    have hbv : b = v := by
      simp only [hf] at h
      simpa using h
    exact hak ▸ hbv ▸ hm

/-! ## Data model (src/index.js, sections 1-2)

A pinned entry stores the owner id and the chat file name
(`{characterId, file_name}`); a folder is `{id, name, parent}`; the
assignment map (`chatFolders`) maps the chat key string
`characterId + ":" + file_name` to the list of assigned folder ids. -/

/-- One entry of the Pinned Set (`pinnedChats`). -/
structure PinnedEntry where
  characterId : String
  file_name : String
deriving DecidableEq

/-- One folder record. -/
structure Folder where
  id : String
  name : String
  parent : Option String
deriving DecidableEq

/-- An owner descriptor from the host context (`context.characters`),
indexed by its character id. -/
structure Character where
  avatar : String
  name : String
deriving DecidableEq

/-- The chat key string of a chat object (`characterId + ':' + file_name`). -/
def chatKey (c : PinnedEntry) : String :=
  c.characterId ++ ":" ++ c.file_name

/-! ## assignChatToFolder / removeChatFromFolder (src/index.js lines 172-193) -/

/-- Embedding of `assignChatToFolder(chat, folderId)`: ensure the key holds
an array, push the folder id when absent. -/
def assignChatToFolder (m : JsMap (List String)) (chat : PinnedEntry)
    (folderId : String) : JsMap (List String) :=
  jsSet m (chatKey chat)
    (if folderId ∈ (jsGet m (chatKey chat)).getD []
     then (jsGet m (chatKey chat)).getD []
     else (jsGet m (chatKey chat)).getD [] ++ [folderId])

/-- Embedding of `removeChatFromFolder(chat, folderId)`: filter the folder id
out of the key's array and delete the key when the array becomes empty. -/
def removeChatFromFolder (m : JsMap (List String)) (chat : PinnedEntry)
    (folderId : String) : JsMap (List String) :=
  match jsGet m (chatKey chat) with
  | some l =>
      if (l.filter (fun i => i ≠ folderId)).isEmpty
      then jsDelete m (chatKey chat)
      else jsSet m (chatKey chat) (l.filter (fun i => i ≠ folderId))
  | none => m

/-- A user action on the assignment map. -/
inductive FolderOp where
  | assign (chat : PinnedEntry) (folderId : String)
  | unassign (chat : PinnedEntry) (folderId : String)

/-- Run one assignment-map action. -/
def applyFolderOp (m : JsMap (List String)) : FolderOp → JsMap (List String)
  | .assign chat folderId => assignChatToFolder m chat folderId
  | .unassign chat folderId => removeChatFromFolder m chat folderId

/-- Run a sequence of assignment-map actions in order. -/
def applyFolderOps (m : JsMap (List String)) (ops : List FolderOp) :
    JsMap (List String) :=
  ops.foldl applyFolderOp m

/-- The assignment-map invariant: no key holds an empty folder list and every
folder list is duplicate-free. -/
def AssignInv (m : JsMap (List String)) : Prop :=
  ∀ p ∈ m, p.2 ≠ [] ∧ p.2.Nodup

instance (m : JsMap (List String)) : Decidable (AssignInv m) := by
  unfold AssignInv
  infer_instance

theorem assignInv_value {m : JsMap (List String)} (h : AssignInv m)
    {k : String} {l : List String} (hget : jsGet m k = some l) :
    l ≠ [] ∧ l.Nodup :=
  h (k, l) (jsGet_mem m k l hget)

theorem assignInv_assign {m : JsMap (List String)} (h : AssignInv m)
    (chat : PinnedEntry) (folderId : String) :
    AssignInv (assignChatToFolder m chat folderId) := by
  intro p hp
  unfold assignChatToFolder at hp
  rcases mem_jsSet _ _ _ _ hp with he | hm
  · subst he
    rcases hc : jsGet m (chatKey chat) with _ | cur
    · simp [hc, List.Nodup]
    · rcases assignInv_value h hc with ⟨hne, hnd⟩
      by_cases hf : folderId ∈ cur
      · simpa [hc, hf] using ⟨hne, hnd⟩
      · constructor
        · simp [hc, hf]
        · simpa [hc, hf, List.nodup_append] using hnd
  · exact h p hm

theorem assignInv_unassign {m : JsMap (List String)} (h : AssignInv m)
    (chat : PinnedEntry) (folderId : String) :
    AssignInv (removeChatFromFolder m chat folderId) := by
  intro p hp
  unfold removeChatFromFolder at hp
  rcases hc : jsGet m (chatKey chat) with _ | l
  · rw [hc] at hp
    exact h p hp
  · rw [hc] at hp
    simp only at hp
    by_cases hl : (l.filter (fun i => i ≠ folderId)).isEmpty
    · rw [if_pos hl] at hp
      exact h p (mem_jsDelete _ _ _ hp)
    · rw [if_neg hl] at hp
      rcases mem_jsSet _ _ _ _ hp with he | hm
      · subst he
        rcases assignInv_value h hc with ⟨hne, hnd⟩
        constructor
        · intro hemp
          rw [← List.isEmpty_iff] at hemp
          exact hl hemp
        · exact hnd.filter _
      · exact h p hm

theorem assignInv_ops {m : JsMap (List String)} (h : AssignInv m)
    (ops : List FolderOp) : AssignInv (applyFolderOps m ops) := by
  induction ops generalizing m with
  | nil => exact h
  | cons op rest ih =>
      rcases op with ⟨chat, folderId⟩ | ⟨chat, folderId⟩
      · exact ih (assignInv_assign h chat folderId)
      · exact ih (assignInv_unassign h chat folderId)

/-- C8: an unassignment that empties a key's folder list removes the key from
the map entirely, an assignment never creates or keeps an empty entry and
never introduces a duplicate folder id, and from any state satisfying the
no-empty-list / no-duplicate invariant, any sequence of assign/unassign
operations preserves that invariant. -/
theorem assign_unassign_invariant (m : JsMap (List String)) (hm : AssignInv m) :
    (∀ ops : List FolderOp, AssignInv (applyFolderOps m ops)) ∧
    (∀ chat folderId l, jsGet m (chatKey chat) = some l →
        l.filter (fun i => i ≠ folderId) = [] →
        jsGet (removeChatFromFolder m chat folderId) (chatKey chat) = none) ∧
    (∀ chat folderId,
        jsGet (assignChatToFolder m chat folderId) (chatKey chat) ≠ some [] ∧
        ∀ l, jsGet (assignChatToFolder m chat folderId) (chatKey chat) = some l →
          l.Nodup) := by
  refine ⟨fun ops => assignInv_ops hm ops, ?_, ?_⟩
  · intro chat folderId l hget hemp
    unfold removeChatFromFolder
    rw [hget]
    simp only [hemp, List.isEmpty_nil, if_pos]
    exact jsGet_jsDelete_self m (chatKey chat)
  · intro chat folderId
    have hself : jsGet (assignChatToFolder m chat folderId) (chatKey chat) =
        some (if folderId ∈ (jsGet m (chatKey chat)).getD []
          then (jsGet m (chatKey chat)).getD []
          else (jsGet m (chatKey chat)).getD [] ++ [folderId]) := by
      unfold assignChatToFolder
      exact jsGet_jsSet_self m (chatKey chat) _
    rcases hc : jsGet m (chatKey chat) with _ | cur
    · rw [hc] at hself
      simp only [Option.getD_none, List.not_mem_nil, if_neg,
        List.nil_append, not_false_iff] at hself
      rw [hself]
      constructor
      · simp
      · intro l hl
        simp only [Option.some.injEq] at hl
        simp [← hl]
    · rw [hc] at hself
      rcases assignInv_value hm hc with ⟨hne, hnd⟩
      by_cases hf : folderId ∈ cur
      · simp only [Option.getD_some, hf, if_pos] at hself
        rw [hself]
        constructor
        · simp [hne]
        · intro l hl
          simp only [Option.some.injEq] at hl
          exact hl ▸ hnd
      · simp only [Option.getD_some, hf, if_neg, not_false_iff] at hself
        rw [hself]
        constructor
        · simp
        · intro l hl
          simp only [Option.some.injEq] at hl
          rw [← hl]
          refine List.Nodup.append hnd (List.nodup_singleton folderId) ?_
          intro x hx hx2
          rw [List.mem_singleton] at hx2
          exact hf (hx2 ▸ hx)

/-- A concrete assignment map used to instantiate hypothesis-bearing theorems. -/
def assignDemoMap : JsMap (List String) := [("a:x", ["f1"])]

/-- Witness for C8: the invariant hypothesis holds on a concrete map and the
theorem applies there. -/
theorem assign_unassign_invariant_witness :
    AssignInv assignDemoMap ∧
    ∀ ops : List FolderOp, AssignInv (applyFolderOps assignDemoMap ops) :=
  ⟨by decide, (assign_unassign_invariant assignDemoMap (by decide)).1⟩

/-! ## Organization state and removeFolder (src/index.js lines 140-148) -/

/-- The persisted organization structures of the extension settings. -/
structure OrgState where
  pinnedChats : List PinnedEntry
  folders : List Folder
  chatFolders : JsMap (List String)

/-- Embedding of `removeFolder(id)`: filter the folder out of the folder
list; the pinned set and the assignment map are not touched. -/
def removeFolder (st : OrgState) (id : String) : OrgState :=
  { st with folders := st.folders.filter (fun f => f.id ≠ id) }

/-- C10: `removeFolder(id)` removes exactly the folders with the given id
from the folder list, leaving the other folders in place and leaving the
pinned set and the assignment map unchanged, so assignments referencing the
removed folder id are orphaned in place, never pruned. -/
theorem removeFolder_frame (st : OrgState) (id : String) :
    (removeFolder st id).pinnedChats = st.pinnedChats ∧
    (removeFolder st id).chatFolders = st.chatFolders ∧
    (removeFolder st id).folders.Sublist st.folders ∧
    ∀ f, f ∈ (removeFolder st id).folders ↔ f ∈ st.folders ∧ f.id ≠ id := by
  refine ⟨rfl, rfl, List.filter_sublist _, ?_⟩
  intro f
  simp [removeFolder, List.mem_filter]

/-! ## Reentrancy guard of refreshFoldersTab (src/index.js lines 2622-2789)

The refresh entry point is guarded by the module flag
`isRefreshingFoldersTab`: a call that finds the flag set returns at once,
before any fetch; otherwise the flag is set, the fetch/render body runs (its
awaits are the points where further requests can arrive), and a `finally`
block clears the flag on every termination, normal or thrown.  The guard is
embedded as a step relation over an explicit state: `latch` is the flag,
`inFlight` records that a body is between the guard and its `finally`,
`fetches` counts started fetch sequences, and `overlapped` records whether a
fetch sequence ever started while another was in flight. -/

/-- An event of a guard trace: a refresh request arrives at the entry point,
or the in-flight body terminates (`threw` tells whether it terminated by a
thrown error / rejected promise). -/
inductive GuardCmd where
  | request
  | finish (threw : Bool)

/-- The guard state. -/
structure GuardState where
  latch : Bool
  inFlight : Bool
  fetches : Nat
  overlapped : Bool
deriving DecidableEq

/-- One step of the reentrancy guard. -/
def guardStep (s : GuardState) : GuardCmd → GuardState
  | .request =>
      if s.latch then s
      else
        { latch := true, inFlight := true, fetches := s.fetches + 1,
          overlapped := s.overlapped || s.inFlight }
  | .finish _ =>
      if s.inFlight then { s with latch := false, inFlight := false } else s

/-- The initial guard state: flag clear, nothing in flight. -/
def guardInit : GuardState :=
  { latch := false, inFlight := false, fetches := 0, overlapped := false }

/-- Run a trace of guard events from the initial state. -/
def guardRun (cs : List GuardCmd) : GuardState :=
  cs.foldl guardStep guardInit

theorem guardStep_inv (s : GuardState) (c : GuardCmd)
    (h : s.latch = s.inFlight ∧ s.overlapped = false) :
    (guardStep s c).latch = (guardStep s c).inFlight ∧
      (guardStep s c).overlapped = false := by
  rcases c with _ | threw
  · by_cases hl : s.latch = true
    · have hf : s.inFlight = true := h.1 ▸ hl
      simp [guardStep, hl, hf, h.2]
    · have hl2 : s.latch = false := by
        revert hl
        rcases s.latch <;> simp
      have hf : s.inFlight = false := h.1 ▸ hl2
      simp [guardStep, hl2, hf, h.2]
  · by_cases hf : s.inFlight = true
    · simp [guardStep, hf, h.2]
    · have hf2 : s.inFlight = false := by
        revert hf
        rcases s.inFlight <;> simp
      simp [guardStep, hf2, h.1, h.2]

theorem guardFold_inv (cs : List GuardCmd) (s : GuardState)
    (h : s.latch = s.inFlight ∧ s.overlapped = false) :
    (cs.foldl guardStep s).latch = (cs.foldl guardStep s).inFlight ∧
      (cs.foldl guardStep s).overlapped = false := by
  induction cs generalizing s with
  | nil => exact h
  | cons c rest ih => exact ih _ (guardStep_inv s c h)

theorem guardRun_inv (cs : List GuardCmd) :
    (guardRun cs).latch = (guardRun cs).inFlight ∧
      (guardRun cs).overlapped = false :=
  guardFold_inv cs guardInit ⟨rfl, rfl⟩

/-- C9: a refresh request that finds the latch set is dropped whole (the
state is unchanged: no fetch is started, nothing is queued); every
termination of an in-flight refresh, thrown or not, clears the latch; and
along every trace from the initial state the latch always equals the
in-flight flag and no fetch sequence ever starts while another one is in
flight. -/
theorem refresh_guard (s : GuardState) (hlatch : s.latch = true)
    (cs : List GuardCmd) (threw : Bool) :
    guardStep s .request = s ∧
    (s.inFlight = true → (guardStep s (.finish threw)).latch = false ∧
      (guardStep s (.finish threw)).inFlight = false) ∧
    ((guardRun cs).overlapped = false ∧
      (guardRun cs).latch = (guardRun cs).inFlight) := by
  refine ⟨?_, ?_, (guardRun_inv cs).2, (guardRun_inv cs).1⟩
  · simp [guardStep, hlatch]
  · intro hf
    simp [guardStep, hf]

/-- Witness for C9: the theorem applied in a state with the latch set. -/
theorem refresh_guard_witness :
    (GuardState.mk true true 1 false).latch = true ∧
    guardStep (GuardState.mk true true 1 false) .request =
      GuardState.mk true true 1 false :=
  ⟨rfl, (refresh_guard (GuardState.mk true true 1 false) rfl
    [.request, .finish true] true).1⟩

/-! ## Identity reconciliation (src/index.js lines 2926-3116)

`processCharacterRenameUpdate` rebuilds, per pass, a ground-truth map from
chat file name to the id of the character currently listing that file, then
remaps the pinned set and the assignment map against it.
`handleCharacterDelete` prunes both structures by owner id.  The JS key
string splits are embedded on the character data of the key. -/

/-- JS `key.split(':', 1)[0]`: the text before the first colon (the whole
string when there is no colon) — the owner-id component of a chat key. -/
def firstSeg (s : String) : String :=
  String.mk (s.data.takeWhile (fun c => c ≠ ':'))

/-- JS `key.split(':', 2)[1]`: the segment between the first and second
colon, or none when the key has no colon — the file-name component. -/
def secondSeg (s : String) : Option String :=
  match s.data.dropWhile (fun c => c ≠ ':') with
  | [] => none
  | _ :: rest => some (String.mk (rest.takeWhile (fun c => c ≠ ':')))

/-- The ground-truth map file name → current owner id (lines 2944-2968):
for every character with a truthy avatar, list its chat files and record
every (string, nonempty) chat name under that character id, later
characters overwriting earlier ones.  A character whose listing call fails
contributes nothing, which the `listings` parameter models by returning an
empty list for its avatar. -/
def buildChatFileToCharacterId (characters : JsMap Character)
    (listings : String → List String) : JsMap String :=
  characters.foldl
    (fun acc p =>
      if p.2.avatar ≠ "" then
        ((listings p.2.avatar).filter (fun n => n ≠ "")).foldl
          (fun acc2 n => jsSet acc2 n p.1) acc
      else acc) []

theorem foldl_jsSet_value {α : Type} (P : α → Prop) (v : α) (hv : P v) :
    ∀ (ns : List String) (acc : JsMap α), (∀ p ∈ acc, P p.2) →
      ∀ p ∈ ns.foldl (fun a n => jsSet a n v) acc, P p.2 := by
  intro ns
  induction ns with
  | nil => exact fun acc hacc => hacc
  | cons n rest ih =>
      intro acc hacc
      refine ih (jsSet acc n v) ?_
      intro p hp
      rcases mem_jsSet acc n v p hp with he | hm
      · rw [he]
        exact hv
      · exact hacc p hm

theorem buildMap_value (P : String → Prop) :
    ∀ (cs : JsMap Character) (listings : String → List String)
      (acc : JsMap String), (∀ q ∈ cs, P q.1) → (∀ p ∈ acc, P p.2) →
      ∀ p ∈ cs.foldl
        (fun acc2 q =>
          if q.2.avatar ≠ "" then
            ((listings q.2.avatar).filter (fun n => n ≠ "")).foldl
              (fun a n => jsSet a n q.1) acc2
          else acc2) acc, P p.2 := by
  intro cs
  induction cs with
  | nil => exact fun listings acc hcs hacc => hacc
  | cons q rest ih =>
      intro listings acc hcs hacc
      rw [List.foldl_cons]
      refine ih listings _ (fun r hr => hcs r (List.mem_cons_of_mem q hr)) ?_
      by_cases hav : q.2.avatar ≠ ""
      · rw [if_pos hav]
        exact foldl_jsSet_value P q.1 (hcs q (List.mem_cons_self q rest)) _ acc hacc
      · rw [if_neg hav]
        exact hacc

theorem buildMap_owner_ne_empty (characters : JsMap Character)
    (listings : String → List String) (hids : ∀ q ∈ characters, q.1 ≠ "")
    (fn c : String)
    (h : jsGet (buildChatFileToCharacterId characters listings) fn = some c) :
    c ≠ "" := by
  have hmem := jsGet_mem _ _ _ h
  exact buildMap_value (fun x => x ≠ "") characters listings [] hids (by simp) (fn, c) hmem

/-- Lines 2976-2993: remap of one pinned entry.  The JS truthiness test on
the looked-up owner id means an empty-string owner id counts as not found
and leaves the entry unchanged. -/
def remapPinnedEntry (gt : JsMap String) (p : PinnedEntry) : PinnedEntry :=
  match jsGet gt p.file_name with
  | some c =>
      if c ≠ "" ∧ c ≠ p.characterId then { p with characterId := c } else p
  | none => p

/-- Lines 2976-2993: remap of the whole pinned set (a pointwise map; when no
entry changed the original array is kept, which is extensionally the same
list). -/
def remapPinned (gt : JsMap String) (pinned : List PinnedEntry) :
    List PinnedEntry :=
  pinned.map (remapPinnedEntry gt)

/-- C1: against the ground-truth map built from the current owner listings
(whose owner ids are the character ids, all nonempty), a pinned entry whose
file name is mapped to a different owner id is rewritten to that owner id
(only the characterId field changes), and a pinned entry whose file name is
absent from the ground-truth map is left completely unchanged; the remap is
a pointwise map, so no entry is deleted. -/
theorem remapPinned_correct (characters : JsMap Character)
    (listings : String → List String)
    (hids : ∀ q ∈ characters, q.1 ≠ "") (p : PinnedEntry) :
    (∀ c, jsGet (buildChatFileToCharacterId characters listings) p.file_name
        = some c → c ≠ p.characterId →
        remapPinnedEntry (buildChatFileToCharacterId characters listings) p
          = { p with characterId := c }) ∧
    (jsGet (buildChatFileToCharacterId characters listings) p.file_name
        = none →
        remapPinnedEntry (buildChatFileToCharacterId characters listings) p
          = p) ∧
    ∀ pinned : List PinnedEntry,
      remapPinned (buildChatFileToCharacterId characters listings) pinned
        = pinned.map
            (remapPinnedEntry (buildChatFileToCharacterId characters listings))
      ∧ (remapPinned (buildChatFileToCharacterId characters listings)
          pinned).length = pinned.length := by
  refine ⟨?_, ?_, fun pinned => ⟨rfl, List.length_map _ _⟩⟩
  · intro c hc hne
    have hc0 : c ≠ "" := buildMap_owner_ne_empty characters listings hids _ c hc
    unfold remapPinnedEntry
    rw [hc]
    exact if_pos ⟨hc0, hne⟩
  · intro hn
    unfold remapPinnedEntry
    rw [hn]

/-- The owner directory of the rename scenario of §8 of the spec: one
character, id 2, listing the file fileA. -/
def renameCharacters : JsMap Character :=
  [("2", { avatar := "a.png", name := "Alice" })]

/-- The listings of the rename scenario. -/
def renameListings : String → List String :=
  fun av => if av = "a.png" then ["fileA"] else []

/-- Witness for C1: the stored entry (owner 1, fileA) is rewritten to the
ground-truth owner 2. -/
theorem remapPinned_correct_witness :
    (∀ q ∈ renameCharacters, q.1 ≠ "") ∧
    remapPinnedEntry (buildChatFileToCharacterId renameCharacters
      renameListings) (PinnedEntry.mk "1" "fileA") = PinnedEntry.mk "2" "fileA" :=
  ⟨by decide,
    (remapPinned_correct renameCharacters renameListings (by decide)
      (PinnedEntry.mk "1" "fileA")).1 "2" (by decide) (by decide)⟩

/-- Lines 3004-3030: remap of one assignment-map entry.  The accumulator is
the new map under construction together with the foldersChanged flag.  A
truthy looked-up owner id rewrites the entry under the corrected key via a
plain property write; otherwise the entry is carried over when its stored
owner id still names a character, and skipped when it does not — and neither
of those two branches raises the foldersChanged flag. -/
def remapFoldersStep (gt : JsMap String) (characters : JsMap Character)
    (acc : JsMap (List String) × Bool) (e : String × List String) :
    JsMap (List String) × Bool :=
  match (secondSeg e.1).bind (fun fn => jsGet gt fn) with
  | some c =>
      if c ≠ "" then
        (jsSet acc.1 (c ++ ":" ++ (secondSeg e.1).getD "") e.2,
         acc.2 || decide (c ++ ":" ++ (secondSeg e.1).getD "" ≠ e.1))
      else
        if (jsGet characters (firstSeg e.1)).isSome
        then (jsSet acc.1 e.1 e.2, acc.2)
        else acc
  | none =>
      if (jsGet characters (firstSeg e.1)).isSome
      then (jsSet acc.1 e.1 e.2, acc.2)
      else acc

/-- Lines 3000-3030: rebuild the whole assignment map entry by entry. -/
def processFoldersRemap (gt : JsMap String) (characters : JsMap Character)
    (m : JsMap (List String)) : JsMap (List String) × Bool :=
  m.foldl (remapFoldersStep gt characters) ([], false)

/-- Lines 3032-3034: the rebuilt map replaces the stored one only when the
foldersChanged flag was raised. -/
def remapFoldersStored (gt : JsMap String) (characters : JsMap Character)
    (m : JsMap (List String)) : JsMap (List String) :=
  if (processFoldersRemap gt characters m).2
  then (processFoldersRemap gt characters m).1
  else m

theorem remapFoldersStep_some_preserved (gt : JsMap String)
    (characters : JsMap Character) (acc : JsMap (List String) × Bool)
    (e : String × List String) (k : String)
    (h : (jsGet acc.1 k).isSome) :
    (jsGet (remapFoldersStep gt characters acc e).1 k).isSome := by
  unfold remapFoldersStep
  rcases hco : (secondSeg e.1).bind (fun fn => jsGet gt fn) with _ | c
  · by_cases hch : (jsGet characters (firstSeg e.1)).isSome
    · simp only [hch, if_pos]
      by_cases hk : e.1 = k
      · rw [hk, jsGet_jsSet_self]
        rfl
      · rw [jsGet_jsSet_ne _ _ _ _ hk]
        exact h
    · simp only [hch, if_neg, Bool.false_eq_true, not_false_iff]
      exact h
  · by_cases hc : c ≠ ""
    · simp only [hc, if_pos, ne_eq, not_false_iff]
      by_cases hk : c ++ ":" ++ (secondSeg e.1).getD "" = k
      · rw [hk, jsGet_jsSet_self]
        rfl
      · rw [jsGet_jsSet_ne _ _ _ _ hk]
        exact h
    · simp only [hc, if_neg, not_false_iff]
      by_cases hch : (jsGet characters (firstSeg e.1)).isSome
      · simp only [hch, if_pos]
        by_cases hk : e.1 = k
        · rw [hk, jsGet_jsSet_self]
          rfl
        · rw [jsGet_jsSet_ne _ _ _ _ hk]
          exact h
      · simp only [hch, if_neg, Bool.false_eq_true, not_false_iff]
        exact h

theorem remapFoldersFold_some_preserved (gt : JsMap String)
    (characters : JsMap Character) (rest : List (String × List String))
    (acc : JsMap (List String) × Bool) (k : String)
    (h : (jsGet acc.1 k).isSome) :
    (jsGet (rest.foldl (remapFoldersStep gt characters) acc).1 k).isSome := by
  induction rest generalizing acc with
  | nil => exact h
  | cons e t ih =>
      exact ih _ (remapFoldersStep_some_preserved gt characters acc e k h)

/-- C2 (amended): an assignment-map entry whose file name is found in the
ground-truth map under a (truthy) owner id is rewritten under the corrected
key, the write replacing (not merging) whatever folder list the map under
construction already holds at that key; an entry whose owner id still names
a character but whose file name is not found is carried over unchanged; in
both cases every other key of the map under construction keeps its value,
and every entry of the stored map that is remappable ends with its corrected
key present in the rebuilt map. -/
theorem remapFolders_rewrite (gt : JsMap String) (characters : JsMap Character)
    (acc : JsMap (List String)) (changed : Bool) (key : String)
    (l : List String) (m : JsMap (List String)) :
    (∀ fn c, secondSeg key = some fn → jsGet gt fn = some c → c ≠ "" →
      c ≠ firstSeg key →
      jsGet (remapFoldersStep gt characters (acc, changed) (key, l)).1
          (c ++ ":" ++ fn) = some l ∧
      ∀ k2, k2 ≠ c ++ ":" ++ fn →
        jsGet (remapFoldersStep gt characters (acc, changed) (key, l)).1 k2
          = jsGet acc k2) ∧
    (∀ fn, secondSeg key = some fn → jsGet gt fn = none →
      (jsGet characters (firstSeg key)).isSome →
      jsGet (remapFoldersStep gt characters (acc, changed) (key, l)).1 key
        = some l ∧
      ∀ k2, k2 ≠ key →
        jsGet (remapFoldersStep gt characters (acc, changed) (key, l)).1 k2
          = jsGet acc k2) ∧
    (∀ e ∈ m, ∀ fn c, secondSeg e.1 = some fn → jsGet gt fn = some c →
      c ≠ "" →
      (jsGet (processFoldersRemap gt characters m).1 (c ++ ":" ++ fn)).isSome)
    := by
  refine ⟨?_, ?_, ?_⟩
  · intro fn c hfn hgt hc0 _
    unfold remapFoldersStep
    simp only [hfn, Option.some_bind, hgt, Option.getD_some]
    rw [if_pos hc0]
    refine ⟨jsGet_jsSet_self acc _ l, ?_⟩
    intro k2 hk2
    exact jsGet_jsSet_ne acc _ k2 l (Ne.symm hk2)
  · intro fn hfn hgt hch
    unfold remapFoldersStep
    simp only [hfn, Option.some_bind, hgt]
    rw [if_pos hch]
    refine ⟨jsGet_jsSet_self acc key l, ?_⟩
    intro k2 hk2
    exact jsGet_jsSet_ne acc key k2 l (Ne.symm hk2)
  · intro e he fn c hfn hgt hc0
    rcases List.append_of_mem he with ⟨s1, s2, hsplit⟩
    subst hsplit
    unfold processFoldersRemap
    rw [List.foldl_append, List.foldl_cons]
    refine remapFoldersFold_some_preserved gt characters s2 _ _ ?_
    unfold remapFoldersStep
    simp only [hfn, Option.some_bind, hgt, Option.getD_some]
    rw [if_pos hc0]
    simp [jsGet_jsSet_self]

/-- Owner directory for the merge scenario: one character, id 0, whose
listing holds the file x. -/
def mergeCharacters : JsMap Character :=
  [("0", { avatar := "b.png", name := "Bea" })]

/-- Listings for the merge scenario. -/
def mergeListings : String → List String :=
  fun av => if av = "b.png" then ["x"] else []

/-- A stored assignment map with two entries for the same file x under two
different owner ids; ground truth maps x to owner 0. -/
def mergeMap : JsMap (List String) :=
  [("1:x", ["f1"]), ("0:x", ["f2"])]

/-- Counterexample to C2 as stated: remapping `mergeMap` against ground
truth `x -> 0` rewrites the entry `1:x -> [f1]` under the corrected key
`0:x`, but the later entry `0:x -> [f2]` overwrites that list instead of
merging with it: the final map holds `[f2]` at `0:x` and the folder id f1
survives in no list of that key, so the folder lists are not unioned. -/
theorem remapFolders_no_union :
    jsGet (remapFoldersStored
      (buildChatFileToCharacterId mergeCharacters mergeListings)
      mergeCharacters mergeMap) "0:x" = some ["f2"] ∧
    (∀ l, jsGet (remapFoldersStored
      (buildChatFileToCharacterId mergeCharacters mergeListings)
      mergeCharacters mergeMap) "0:x" = some l → "f1" ∉ l) ∧
    jsGet (buildChatFileToCharacterId mergeCharacters mergeListings) "x"
      = some "0" := by
  refine ⟨by decide, ?_, by decide⟩
  intro l hl
  have : l = ["f2"] := by
    have h2 : jsGet (remapFoldersStored
        (buildChatFileToCharacterId mergeCharacters mergeListings)
        mergeCharacters mergeMap) "0:x" = some ["f2"] := by decide
    rw [h2] at hl
    exact (Option.some.inj hl).symm
  rw [this]
  decide

/-- Owner directory for the orphan scenario: one character, id 0, with an
empty listing; the stored map holds a single entry whose owner id 9 names no
character and whose file name x is in no listing. -/
def orphanCharacters : JsMap Character :=
  [("0", { avatar := "c.png", name := "Cee" })]

/-- Listings for the orphan scenario: every listing is empty. -/
def orphanListings : String → List String := fun _ => []

/-- The stored assignment map of the orphan scenario. -/
def orphanMap : JsMap (List String) :=
  [("9:x", ["f1"])]

/-- C3 evaluated at the failing input: processing the orphan scenario drops
the orphaned entry from the rebuilt map, but the foldersChanged flag stays
false because the skip branch never raises it, so the rebuilt map is not
persisted and the stored assignment map still contains the orphaned entry
after the pass. -/
theorem remapFolders_orphan_drop_not_persisted :
    (processFoldersRemap
      (buildChatFileToCharacterId orphanCharacters orphanListings)
      orphanCharacters orphanMap).1 = [] ∧
    (processFoldersRemap
      (buildChatFileToCharacterId orphanCharacters orphanListings)
      orphanCharacters orphanMap).2 = false ∧
    remapFoldersStored
      (buildChatFileToCharacterId orphanCharacters orphanListings)
      orphanCharacters orphanMap = [("9:x", ["f1"])] := by
  refine ⟨by decide, by decide, by decide⟩

/-- Lines 3078-3116: `handleCharacterDelete(characterId)`.  A falsy id
returns at once; otherwise the pinned set keeps the entries of other owners
and the assignment map is rebuilt keeping exactly the keys whose owner-id
component (the text before the first colon) differs from the deleted id.
The rebuilt map is persisted unconditionally. -/
def handleCharacterDelete (characterId : String)
    (pinned : List PinnedEntry) (m : JsMap (List String)) :
    List PinnedEntry × JsMap (List String) :=
  if characterId = "" then (pinned, m)
  else
    (pinned.filter (fun p => p.characterId ≠ characterId),
     m.foldl
       (fun acc e =>
         if firstSeg e.1 ≠ characterId then jsSet acc e.1 e.2 else acc) [])

theorem jsGet_eq_none_of_not_mem_keys {α : Type} (m : JsMap α) (k : String)
    (h : k ∉ m.map Prod.fst) : jsGet m k = none := by
  rcases hget : jsGet m k with _ | v
  · rfl
  · exact absurd (List.mem_map_of_mem Prod.fst (jsGet_mem m k v hget)) h

theorem deleteFold_get_absent (d : String) (m : JsMap (List String)) :
    ∀ (acc : JsMap (List String)) (k : String), jsGet m k = none →
      jsGet (m.foldl
        (fun acc2 e =>
          if firstSeg e.1 ≠ d then jsSet acc2 e.1 e.2 else acc2) acc) k
        = jsGet acc k := by
  induction m with
  | nil =>
      intro acc k _
      rfl
  | cons e t ih =>
      intro acc k h
      rcases e with ⟨k0, v0⟩
      rw [jsGet_cons] at h
      by_cases hk0 : k0 = k
      · rw [if_pos hk0] at h
        exact absurd h (by simp)
      · rw [if_neg hk0] at h
        rw [List.foldl_cons, ih _ k h]
        by_cases hkeep : firstSeg k0 ≠ d
        · rw [if_pos hkeep, jsGet_jsSet_ne acc k0 k v0 hk0]
        · rw [if_neg hkeep]

theorem deleteFold_get_present (d : String) (m : JsMap (List String)) :
    ∀ (acc : JsMap (List String)) (k : String) (v : List String),
      (m.map Prod.fst).Nodup → (∀ e ∈ m, jsGet acc e.1 = none) →
      jsGet m k = some v →
      jsGet (m.foldl
        (fun acc2 e =>
          if firstSeg e.1 ≠ d then jsSet acc2 e.1 e.2 else acc2) acc) k
        = if firstSeg k = d then none else some v := by
  induction m with
  | nil =>
      intro acc k v _ _ h
      exact absurd h (by simp [jsGet_nil])
  | cons e t ih =>
      intro acc k v hnd hacc h
      rcases e with ⟨k0, v0⟩
      have hnd2 : k0 ∉ t.map Prod.fst ∧ (t.map Prod.fst).Nodup := by
        rw [List.map_cons] at hnd
        exact List.nodup_cons.mp hnd
      rw [List.foldl_cons]
      rw [jsGet_cons] at h
      by_cases hk0 : k0 = k
      · subst hk0
        rw [if_pos rfl] at h
        injection h with hv
        subst hv
        have hnone : jsGet t k0 = none := by
          refine jsGet_eq_none_of_not_mem_keys t k0 hnd2.1
        rw [deleteFold_get_absent d t _ k0 hnone]
        by_cases hkeep : firstSeg k0 ≠ d
        · rw [if_pos hkeep, jsGet_jsSet_self, if_neg hkeep]
        · rw [if_neg hkeep]
          push_neg at hkeep
          rw [if_pos hkeep]
          exact hacc (k0, v0) (List.mem_cons_self _ _)
      · rw [if_neg hk0] at h
        have hacc2 : ∀ e2 ∈ t,
            jsGet (if firstSeg k0 ≠ d then jsSet acc k0 v0 else acc) e2.1
              = none := by
          intro e2 he2
          have hne : k0 ≠ e2.1 := by
            intro hcontra
            exact hnd2.1 (hcontra ▸ List.mem_map_of_mem Prod.fst he2)
          by_cases hkeep : firstSeg k0 ≠ d
          · rw [if_pos hkeep, jsGet_jsSet_ne acc k0 e2.1 v0 hne]
            exact hacc e2 (List.mem_cons_of_mem _ he2)
          · rw [if_neg hkeep]
            exact hacc e2 (List.mem_cons_of_mem _ he2)
        exact ih _ k v hnd2.2 hacc2 h

/-- C4: for a deleted (nonempty) owner id, the prune removes exactly the
pinned entries whose owner id equals the deleted id, removes exactly the
assignment-map keys whose owner-id component equals the deleted id, and
leaves every key of any other owner bound to its original folder list. -/
theorem handleCharacterDelete_correct (d : String) (hd : d ≠ "")
    (pinned : List PinnedEntry) (m : JsMap (List String))
    (hkeys : (m.map Prod.fst).Nodup) :
    (handleCharacterDelete d pinned m).1
      = pinned.filter (fun p => p.characterId ≠ d) ∧
    (∀ p, p ∈ (handleCharacterDelete d pinned m).1 ↔
      p ∈ pinned ∧ p.characterId ≠ d) ∧
    (∀ k, firstSeg k = d →
      jsGet (handleCharacterDelete d pinned m).2 k = none) ∧
    (∀ k, firstSeg k ≠ d →
      jsGet (handleCharacterDelete d pinned m).2 k = jsGet m k) := by
  have hmap : (handleCharacterDelete d pinned m).2
      = m.foldl
        (fun acc e =>
          if firstSeg e.1 ≠ d then jsSet acc e.1 e.2 else acc) [] := by
    unfold handleCharacterDelete
    rw [if_neg hd]
  have hpin : (handleCharacterDelete d pinned m).1
      = pinned.filter (fun p => p.characterId ≠ d) := by
    unfold handleCharacterDelete
    rw [if_neg hd]
  refine ⟨hpin, ?_, ?_, ?_⟩
  · intro p
    rw [hpin]
    simp [List.mem_filter]
  · intro k hk
    rw [hmap]
    rcases hget : jsGet m k with _ | v
    · rw [deleteFold_get_absent d m [] k hget]
      rfl
    · rw [deleteFold_get_present d m [] k v hkeys
        (fun e he => jsGet_nil e.1) hget, if_pos hk]
  · intro k hk
    rw [hmap]
    rcases hget : jsGet m k with _ | v
    · rw [deleteFold_get_absent d m [] k hget]
      rfl
    · rw [deleteFold_get_present d m [] k v hkeys
        (fun e he => jsGet_nil e.1) hget, if_neg hk]

/-- Pinned set of the prune scenario of §8 of the spec. -/
def pruneDemoPinned : List PinnedEntry :=
  [PinnedEntry.mk "owner1" "a", PinnedEntry.mk "owner2" "b"]

/-- Assignment map of the prune scenario, with entries under owner1 and
owner2. -/
def pruneDemoMap : JsMap (List String) :=
  [("owner1:a", ["f1"]), ("owner2:b", ["f2"])]

/-- Witness for C4: pruning owner1 on the concrete scenario removes exactly
the owner1 entries. -/
theorem handleCharacterDelete_correct_witness :
    (("owner1" : String) ≠ "" ∧ (pruneDemoMap.map Prod.fst).Nodup) ∧
    (handleCharacterDelete "owner1" pruneDemoPinned pruneDemoMap).1
      = pruneDemoPinned.filter (fun p => p.characterId ≠ "owner1") :=
  ⟨⟨by decide, by decide⟩,
    (handleCharacterDelete_correct "owner1" (by decide) pruneDemoPinned
      pruneDemoMap (by decide)).1⟩

/-! ## Chat aggregation pipeline (src/index.js lines 1374-1523)

The joined chat record after attaching the stats entry and the normalized
last-activity timestamp (a JS Date embedded as an integer; `none` when the
record had no stats, a falsy raw timestamp, or an unparseable one). -/

/-- A stats record (`getPastCharacterChats` output entry): raw last-message
timestamp and snippet; the empty string embeds a falsy/absent field. -/
structure Stat where
  file_name : String
  last_mes : String
  mes : String
deriving DecidableEq

/-- A chat-listing record before the stats join (lines 1389-1403). -/
structure RawChat where
  character : String
  avatar : String
  file_name : String
  characterId : String
deriving DecidableEq

/-- A chat record after the stats join (lines 1421-1432). -/
structure JoinedChat where
  character : String
  avatar : String
  file_name : String
  characterId : String
  stat : Option Stat
  last_mes : Option Int
deriving DecidableEq

/-- The fixed page size `MAX_RECENT_CHATS` (line 31). -/
def MAX_RECENT_CHATS : Nat := 100

/-- JS `toLowerCase` on the character data (ASCII case map). -/
def lowerData (s : String) : List Char :=
  s.data.map Char.toLower

/-- JS `String.prototype.includes`: substring test. -/
def listContains (hay needle : List Char) : Bool :=
  match hay with
  | [] => needle.isEmpty
  | _ :: t => needle.isPrefixOf hay || listContains t needle

/-- Lines 1438-1445: the case-insensitive text filter over owner display
name, file name and snippet; an empty filter matches everything, and a falsy
(empty) field never matches. -/
def chatMatches (filterLower : List Char) (c : JoinedChat) : Bool :=
  if filterLower.isEmpty then true
  else
    (if c.character = "" then false
     else listContains (lowerData c.character) filterLower) ||
    (if c.file_name = "" then false
     else listContains (lowerData c.file_name) filterLower) ||
    (match c.stat with
     | some s =>
         if s.mes = "" then false else listContains (lowerData s.mes) filterLower
     | none => false)

/-- Line 1446: the filtered chat list. -/
def filteredChats (allChats : List JoinedChat) (filter : String) :
    List JoinedChat :=
  allChats.filter (chatMatches (lowerData filter))

/-- Lines 1446-1448 and 1523: the page slice
`filteredChats.slice(offset, offset + MAX_RECENT_CHATS)` together with the
returned total filtered count. -/
def populateResult (allChats : List JoinedChat) (filter : String)
    (offset : Nat) : List JoinedChat × Nat :=
  (((filteredChats allChats filter).drop offset).take MAX_RECENT_CHATS,
   (filteredChats allChats filter).length)

/-- C5: for a filtered list of length N and the fixed page size P, the page
at offset k*P holds exactly min(P, N - k*P) non-pinned items (truncated
subtraction embeds max(0, N - k*P)), and the returned totalChats equals N at
every offset. -/
theorem populate_pagination (allChats : List JoinedChat) (filter : String)
    (k : Nat) :
    (populateResult allChats filter (k * MAX_RECENT_CHATS)).1.length
      = min MAX_RECENT_CHATS
          ((filteredChats allChats filter).length - k * MAX_RECENT_CHATS) ∧
    (populateResult allChats filter (k * MAX_RECENT_CHATS)).2
      = (filteredChats allChats filter).length ∧
    ∀ o1 o2 : Nat, (populateResult allChats filter o1).2
      = (populateResult allChats filter o2).2 := by
  refine ⟨?_, rfl, fun o1 o2 => rfl⟩
  simp [populateResult, List.length_take, List.length_drop]

/-- Lines 1421-1432: join one listing record with its stats entry and
normalize the last-activity timestamp through the tolerant parser
(`timestampToMoment` + `isValid` + `toDate`, embedded as the `parseTs`
parameter). -/
def joinChat (parseTs : String → Option Int) (statsMap : JsMap Stat)
    (c : RawChat) : JoinedChat :=
  { character := c.character, avatar := c.avatar, file_name := c.file_name,
    characterId := c.characterId,
    stat := jsGet statsMap (c.characterId ++ ":" ++ c.file_name),
    last_mes :=
      match jsGet statsMap (c.characterId ++ ":" ++ c.file_name) with
      | some s => if s.last_mes ≠ "" then parseTs s.last_mes else none
      | none => none }

/-- The comparator of line 1435, `(a, b) => b.last_mes - a.last_mes`, as the
ordering relation of a stable sort: a stays before b iff b's timestamp is
not larger. -/
def descLe (a b : JoinedChat) : Bool :=
  decide (b.last_mes.getD 0 ≤ a.last_mes.getD 0)

/-- Lines 1421-1435: the ordered recent view — join, drop the records with
no parseable timestamp, sort descending by timestamp with a stable sort (JS
`Array.prototype.sort` is stable). -/
def orderAllChats (parseTs : String → Option Int) (statsMap : JsMap Stat)
    (raw : List RawChat) : List JoinedChat :=
  (((raw.map (joinChat parseTs statsMap)).filter
      (fun c => c.last_mes.isSome)).mergeSort descLe)

theorem descLe_trans (a b c : JoinedChat) (h1 : descLe a b = true)
    (h2 : descLe b c = true) : descLe a c = true := by
  unfold descLe at *
  rw [decide_eq_true_eq] at *
  exact le_trans h2 h1

theorem descLe_total (a b : JoinedChat) : (descLe a b || descLe b a) = true := by
  unfold descLe
  rcases le_total (a.last_mes.getD 0) (b.last_mes.getD 0) with h | h
  · rw [Bool.or_eq_true, decide_eq_true_eq, decide_eq_true_eq]
    exact Or.inr h
  · rw [Bool.or_eq_true, decide_eq_true_eq, decide_eq_true_eq]
    exact Or.inl h

/-- C6: the ordered recent view drops exactly the joined records with no
parseable timestamp (it is a permutation of the kept records and every
member has a timestamp), it is sorted in descending order of the normalized
timestamp, and the sort is stable: for every timestamp value, the records
holding it appear in exactly their pre-sort order. -/
theorem orderAllChats_spec (parseTs : String → Option Int)
    (statsMap : JsMap Stat) (raw : List RawChat) :
    (∀ c ∈ orderAllChats parseTs statsMap raw, c.last_mes.isSome) ∧
    (orderAllChats parseTs statsMap raw).Perm
      ((raw.map (joinChat parseTs statsMap)).filter
        (fun c => c.last_mes.isSome)) ∧
    (orderAllChats parseTs statsMap raw).Pairwise
      (fun a b => b.last_mes.getD 0 ≤ a.last_mes.getD 0) ∧
    ∀ t : Int,
      (orderAllChats parseTs statsMap raw).filter
          (fun c => decide (c.last_mes = some t))
        = ((raw.map (joinChat parseTs statsMap)).filter
            (fun c => c.last_mes.isSome)).filter
            (fun c => decide (c.last_mes = some t)) := by
  have hperm : (orderAllChats parseTs statsMap raw).Perm
      ((raw.map (joinChat parseTs statsMap)).filter
        (fun c => c.last_mes.isSome)) :=
    List.mergeSort_perm _ descLe
  refine ⟨?_, hperm, ?_, ?_⟩
  · intro c hc
    exact @List.of_mem_filter _ (fun x => x.last_mes.isSome) c _
      (hperm.mem_iff.mp hc)
  · have hpw := List.sorted_mergeSort descLe_trans descLe_total
      ((raw.map (joinChat parseTs statsMap)).filter
        (fun c => c.last_mes.isSome))
    refine hpw.imp ?_
    intro a b hab
    unfold descLe at hab
    rw [decide_eq_true_eq] at hab
    exact hab
  · intro t
    have hsubkept : ((raw.map (joinChat parseTs statsMap)).filter
          (fun c => c.last_mes.isSome)).filter
          (fun c => decide (c.last_mes = some t))
        |>.Sublist (orderAllChats parseTs statsMap raw) := by
      refine List.sublist_mergeSort descLe_trans descLe_total ?_
        (List.filter_sublist _)
      refine List.pairwise_of_forall_mem_list ?_
      intro a ha b hb
      have ha2 : a.last_mes = some t :=
        of_decide_eq_true
          (@List.of_mem_filter _ (fun x => decide (x.last_mes = some t)) a _ ha)
      have hb2 : b.last_mes = some t :=
        of_decide_eq_true
          (@List.of_mem_filter _ (fun x => decide (x.last_mes = some t)) b _ hb)
      unfold descLe
      rw [decide_eq_true_eq, ha2, hb2]
    have hsub2 : ((raw.map (joinChat parseTs statsMap)).filter
          (fun c => c.last_mes.isSome)).filter
          (fun c => decide (c.last_mes = some t))
        |>.Sublist ((orderAllChats parseTs statsMap raw).filter
          (fun c => decide (c.last_mes = some t))) := by
      have := hsubkept.filter (fun c => decide (c.last_mes = some t))
      rw [List.filter_filter] at this
      have heq : (fun c : JoinedChat =>
          decide (c.last_mes = some t) && decide (c.last_mes = some t))
          = (fun c : JoinedChat => decide (c.last_mes = some t)) := by
        funext c
        rw [Bool.and_self]
      rw [heq] at this
      exact this
    have hlen : (((raw.map (joinChat parseTs statsMap)).filter
          (fun c => c.last_mes.isSome)).filter
          (fun c => decide (c.last_mes = some t))).length
        = ((orderAllChats parseTs statsMap raw).filter
          (fun c => decide (c.last_mes = some t))).length :=
      (hperm.filter (fun c => decide (c.last_mes = some t))).length_eq.symm
    exact (hsub2.eq_of_length hlen).symm

/-! ## Pinned view (src/index.js lines 1450-1497) -/

/-- Lowercased string (JS `toLowerCase` on the character data). -/
def lowerStr (s : String) : String :=
  String.mk (lowerData s)

/-- Lexicographic less-or-equal on a pair of strings, mirroring the nested
comparator of lines 1474-1484 (return -1/1 on the first component, then
-1/1/0 on the second). -/
def strPairLe (p q : String × String) : Bool :=
  if p.1 < q.1 then true
  else if q.1 < p.1 then false
  else decide (p.2 ≤ q.2)

theorem strPairLe_fst_le (p q : String × String)
    (h : strPairLe p q = true) : p.1 ≤ q.1 := by
  unfold strPairLe at h
  by_cases h1 : p.1 < q.1
  · exact le_of_lt h1
  · rw [if_neg h1] at h
    by_cases h2 : q.1 < p.1
    · rw [if_pos h2] at h
      exact absurd h (by simp)
    · exact le_of_not_lt h2

theorem strPairLe_snd_le (p q : String × String)
    (h : strPairLe p q = true) (he : p.1 = q.1) : p.2 ≤ q.2 := by
  unfold strPairLe at h
  rw [he, if_neg (lt_irrefl q.1), if_neg (lt_irrefl q.1)] at h
  exact of_decide_eq_true h

theorem strPairLe_trans (p q r : String × String)
    (h1 : strPairLe p q = true) (h2 : strPairLe q r = true) :
    strPairLe p r = true := by
  by_cases h13 : p.1 < r.1
  · unfold strPairLe
    rw [if_pos h13]
  · have hle : p.1 ≤ r.1 :=
      le_trans (strPairLe_fst_le p q h1) (strPairLe_fst_le q r h2)
    have heq : p.1 = r.1 := le_antisymm hle (le_of_not_lt h13)
    have heq1 : p.1 = q.1 :=
      le_antisymm (strPairLe_fst_le p q h1)
        (heq ▸ strPairLe_fst_le q r h2)
    have heq2 : q.1 = r.1 := heq1 ▸ heq
    have hs : p.2 ≤ r.2 :=
      le_trans (strPairLe_snd_le p q h1 heq1) (strPairLe_snd_le q r h2 heq2)
    unfold strPairLe
    rw [if_neg h13, if_neg (heq ▸ lt_irrefl p.1), decide_eq_true_eq]
    exact hs

theorem strPairLe_total (p q : String × String) :
    (strPairLe p q || strPairLe q p) = true := by
  rcases lt_trichotomy p.1 q.1 with h | h | h
  · unfold strPairLe
    rw [if_pos h]
    rfl
  · unfold strPairLe
    rw [h, if_neg (lt_irrefl q.1), if_neg (lt_irrefl q.1),
      if_neg (lt_irrefl q.1), if_neg (lt_irrefl q.1)]
    rcases le_total p.2 q.2 with h2 | h2
    · rw [Bool.or_eq_true, decide_eq_true_eq, decide_eq_true_eq]
      exact Or.inl h2
    · rw [Bool.or_eq_true, decide_eq_true_eq, decide_eq_true_eq]
      exact Or.inr h2
  · unfold strPairLe
    rw [Bool.or_eq_true]
    right
    rw [if_pos h]

/-- The pinned-chat comparator of lines 1474-1484: alphabetic on the
lowercased owner display name, then on the lowercased file name. -/
def alphaLe (a b : JoinedChat) : Bool :=
  strPairLe (lowerStr a.character, lowerStr a.file_name)
    (lowerStr b.character, lowerStr b.file_name)

theorem alphaLe_trans (a b c : JoinedChat) (h1 : alphaLe a b = true)
    (h2 : alphaLe b c = true) : alphaLe a c = true :=
  strPairLe_trans _ _ _ h1 h2

theorem alphaLe_total (a b : JoinedChat) :
    (alphaLe a b || alphaLe b a) = true :=
  strPairLe_total _ _

/-- Lines 1456-1467: the synthesized fallback record for a pinned chat that
is absent from the ordered view, with best-effort owner lookup in the host
character directory.  Its timestamp comes from `timestampToMoment(...).
toDate()` with no validity check, so any truthy raw timestamp yields a
(possibly invalid, still truthy) date — embedded as the total `parseRaw`
parameter. -/
def synthPinned (parseRaw : String → Int) (characters : JsMap Character)
    (statsMap : JsMap Stat) (p : PinnedEntry) : JoinedChat :=
  { character :=
      match jsGet characters p.characterId with
      | some ch => if ch.name ≠ "" then ch.name else p.characterId
      | none => p.characterId,
    avatar :=
      match jsGet characters p.characterId with
      | some ch => ch.avatar
      | none => "",
    file_name := p.file_name,
    characterId := p.characterId,
    stat := jsGet statsMap (chatKey p),
    last_mes :=
      match jsGet statsMap (chatKey p) with
      | some s => if s.last_mes ≠ "" then some (parseRaw s.last_mes) else none
      | none => none }

/-- Lines 1451-1471: map one pinned entry to its joined record from the
ordered view (refreshing the stat field from the stats map), falling back to
the synthesized record when the chat is absent from the ordered view. -/
def resolvePinned (parseRaw : String → Int) (characters : JsMap Character)
    (statsMap : JsMap Stat) (ordered : List JoinedChat) (p : PinnedEntry) :
    JoinedChat :=
  match ordered.find?
      (fun c => decide (c.characterId = p.characterId ∧
        c.file_name = p.file_name)) with
  | some ci => { ci with stat := jsGet statsMap (chatKey p) }
  | none => synthPinned parseRaw characters statsMap p

/-- Lines 1450-1484: the pinned view — map every pinned entry, keep those
with a truthy timestamp that pass the same text filter, and sort with the
alphabetic comparator (stable JS sort). -/
def pinnedView (parseRaw : String → Int) (characters : JsMap Character)
    (statsMap : JsMap Stat) (ordered : List JoinedChat)
    (pinned : List PinnedEntry) (filter : String) : List JoinedChat :=
  ((pinned.map (resolvePinned parseRaw characters statsMap ordered)).filter
      (fun c => c.last_mes.isSome && chatMatches (lowerData filter) c)
    ).mergeSort alphaLe

/-- C7 (amended): the pinned view maps every pinned entry to its joined
record when the ordered view holds one, else to the synthesized best-effort
record; entries whose resolved record lacks a truthy timestamp are then
dropped along with those failing the case-insensitive text filter (the view
is a permutation of the mapped entries surviving that combined filter),
every surviving chat passes the text filter, and the view is sorted by the
alphabetic owner-name/file-name comparator — an order independent of
recency. -/
theorem pinnedView_spec (parseRaw : String → Int) (characters : JsMap Character)
    (statsMap : JsMap Stat) (ordered : List JoinedChat)
    (pinned : List PinnedEntry) (filter : String) :
    (pinnedView parseRaw characters statsMap ordered pinned filter).Perm
      ((pinned.map (resolvePinned parseRaw characters statsMap ordered)).filter
        (fun c => c.last_mes.isSome && chatMatches (lowerData filter) c)) ∧
    (pinnedView parseRaw characters statsMap ordered pinned filter).Pairwise
      (fun a b => alphaLe a b = true) ∧
    (∀ c ∈ pinnedView parseRaw characters statsMap ordered pinned filter,
      chatMatches (lowerData filter) c = true ∧ c.last_mes.isSome) ∧
    (∀ p, ordered.find?
        (fun c => decide (c.characterId = p.characterId ∧
          c.file_name = p.file_name)) = none →
      resolvePinned parseRaw characters statsMap ordered p
        = synthPinned parseRaw characters statsMap p) ∧
    (∀ p ci, ordered.find?
        (fun c => decide (c.characterId = p.characterId ∧
          c.file_name = p.file_name)) = some ci →
      resolvePinned parseRaw characters statsMap ordered p
        = { ci with stat := jsGet statsMap (chatKey p) }) := by
  have hperm : (pinnedView parseRaw characters statsMap ordered pinned
      filter).Perm
      ((pinned.map (resolvePinned parseRaw characters statsMap ordered)).filter
        (fun c => c.last_mes.isSome && chatMatches (lowerData filter) c)) :=
    List.mergeSort_perm _ alphaLe
  refine ⟨hperm, ?_, ?_, ?_, ?_⟩
  · exact List.sorted_mergeSort alphaLe_trans alphaLe_total _
  · intro c hc
    have hmem := hperm.mem_iff.mp hc
    have hpred := @List.of_mem_filter _
      (fun c => c.last_mes.isSome && chatMatches (lowerData filter) c) c _ hmem
    rw [Bool.and_eq_true] at hpred
    exact ⟨hpred.2, hpred.1⟩
  · intro p hfind
    unfold resolvePinned
    rw [hfind]
  · intro p ci hfind
    unfold resolvePinned
    rw [hfind]

/-- A concrete total stand-in for the unchecked `toDate()` parse of the
pinned fallback. -/
def ghostParse : String → Int := fun _ => 0

/-- Counterexample to C7 as frozen: the pinned entry (owner 5, file ghost)
has no stats record and is absent from the ordered view, so its resolved
record passes the (empty) text filter yet has no truthy timestamp; line 1472
filters on `chat.last_mes` as well as the text match, so the entry is
silently dropped and the pinned view is empty — the view is not obtained by
applying the text filter alone. -/
theorem pinnedView_timestamp_drop :
    chatMatches (lowerData "")
      (resolvePinned ghostParse ([] : JsMap Character) ([] : JsMap Stat)
        ([] : List JoinedChat) (PinnedEntry.mk "5" "ghost")) = true ∧
    (resolvePinned ghostParse ([] : JsMap Character) ([] : JsMap Stat)
        ([] : List JoinedChat) (PinnedEntry.mk "5" "ghost")).last_mes
      = none ∧
    pinnedView ghostParse ([] : JsMap Character) ([] : JsMap Stat)
        ([] : List JoinedChat) [PinnedEntry.mk "5" "ghost"] "" = [] := by
  refine ⟨by decide, by decide, ?_⟩
  have hfilter : (([PinnedEntry.mk "5" "ghost"].map
      (resolvePinned ghostParse ([] : JsMap Character) ([] : JsMap Stat)
        ([] : List JoinedChat))).filter
      (fun c => c.last_mes.isSome && chatMatches (lowerData "") c)) = [] := by
    decide
  unfold pinnedView
  rw [hfilter]
  exact List.mergeSort_nil

end ChatPlus
